import Mathlib

/-!
Verification of the automatic keyword-linking engine of
`app/keyword_linker.py` (class `KeywordLinker`), embedded shallowly.

Python strings are modelled as `List Char` (Python indexes by code point,
exactly like `List Char`).  `re.sub(re.escape(title), f, s, flags=re.IGNORECASE)`
is modelled as a left-to-right scan that, at each offset, matches the literal
`title` case-insensitively (per-character ASCII case folding, as `Char.toLower`);
on a match the replacement is emitted and the scan resumes after the match
(re.sub never rescans a replacement within one pass), otherwise the character
is copied and the scan advances by one.
-/

namespace DHSKeyword

/-- Characters equal under `re.IGNORECASE` (per-character case folding). -/
def charEqIC (a b : Char) : Bool := a.toLower == b.toLower

/-- `matchIC pat s`: the literal `pat` matches at the head of `s`,
case-insensitively (the whole of `pat` must fit). -/
def matchIC : List Char → List Char → Bool
  | [], _ => true
  | _ :: _, [] => false
  | p :: ps, c :: cs => charEqIC p c && matchIC ps cs

/-- `litAt pat s`: the literal `pat` matches at the head of `s`, case-sensitively. -/
def litAt : List Char → List Char → Bool
  | [], _ => true
  | _ :: _, [] => false
  | p :: ps, c :: cs => (p == c) && litAt ps cs

/-- Python `haystack.find(sub)` for a single character, as an `Option`
(`none` plays the role of `-1`). -/
def findChar (c : Char) : List Char → Option Nat
  | [] => none
  | a :: l => if a == c then some 0 else (findChar c l).map (· + 1)

/-- Python `haystack.rfind(sub)`: the greatest offset where `sub` starts,
`none` for `-1`. -/
def rfindSub (needle hay : List Char) : Option Nat :=
  ((List.range (hay.length + 1)).filter (fun i => litAt needle (hay.drop i))).getLast?

/-- Python `int` comparison `x > y` where `none` stands for `-1`. -/
def gtOpt : Option Nat → Option Nat → Bool
  | some i, some j => j < i
  | some _, none => true
  | none, _ => false

/-- `before_text.count("<") > before_text.count(">")`
(keyword_linker.py lines 87-90): the offset is inside an HTML tag. -/
def insideTagB (before : List Char) : Bool := before.count '>' < before.count '<'

/-- keyword_linker.py lines 93-98: reject when the text after the match has an
unmatched `>` — i.e. a `>` occurring before any `<` (or with no `<` at all). -/
def afterRejectB : List Char → Bool
  | [] => false
  | c :: r =>
    match findChar '>' (c :: r), findChar '<' (c :: r) with
    | some nc, some no => decide (nc < no)
    | some _, none => true
    | none, _ => false

/-- keyword_linker.py lines 100-104: the most recent `"<a "` in the preceding
text is more recent than the most recent `"</a>"` (inside an `<a>` element). -/
def insideAnchorB (before : List Char) : Bool :=
  gtOpt (rfindSub "<a ".toList before) (rfindSub "</a>".toList before)

/-- The anchor fragment built in keyword_linker.py lines 106-109:
`<a href="{target_url}" class="keyword-link" title="查看關鍵字: {title}">{match.group(0)}</a>`.
No escaping of any kind is applied. -/
def htmlFragment (title url matched : List Char) : List Char :=
  "<a href=\"".toList ++ url ++ "\" class=\"keyword-link\" title=\"查看關鍵字: ".toList
    ++ title ++ "\">".toList ++ matched ++ "</a>".toList

/-- The callback `replace_if_valid` of `link_keywords_in_html`
(keyword_linker.py lines 85-109): given the text before the match, the matched
text and the text after the match, return either the match unchanged
(rejection) or the anchor fragment. -/
def replaceIfValid (title url before matched after : List Char) : List Char :=
  if insideTagB before then matched
  else if afterRejectB after then matched
  else if insideAnchorB before then matched
  else htmlFragment title url matched

/-- One `re.sub(re.escape(title), replace_if_valid, result, flags=re.IGNORECASE)`
pass (keyword_linker.py line 111).  `bef` is the already scanned prefix (the
match object's `string[:start]`), `rem` the rest of the input; when `skip` is
positive the scanner is inside a just-consumed match and copies characters
without looking for new matches — `re.sub` consumes a match whether the
callback accepted or rejected it and never rescans inside it.  The
`0 < title.length` test mirrors that an empty pattern never reaches this code
(empty trimmed titles are dropped by the planning phase). -/
def subHtmlGo (title url : List Char) : List Char → List Char → Nat → List Char
  | _, [], _ => []
  | bef, c :: rest, skip + 1 => subHtmlGo title url (bef ++ [c]) rest skip
  | bef, c :: rest, 0 =>
    if 0 < title.length ∧ matchIC title (c :: rest) then
      replaceIfValid title url bef ((c :: rest).take title.length)
          ((c :: rest).drop title.length)
        ++ subHtmlGo title url (bef ++ [c]) rest (title.length - 1)
    else c :: subHtmlGo title url (bef ++ [c]) rest 0

/-- One full HTML substitution pass for one candidate. -/
def subHtml (title url s : List Char) : List Char := subHtmlGo title url [] s 0

/-!
The Markdown dialect (`link_keywords_in_markdown`, keyword_linker.py lines
199-216) passes a *string* replacement to `re.sub`, so Python's template
rules apply to it: CPython parses the template up front (even when there is
no match) and raises `re.error` on a bad escape.  `TItem`/`parseTemplate`
model `sre_parse.parse_template`: the pattern has exactly one group (the
escaped title, which is also the whole match), so `\1` (and `\g<0>`/`\g<1>`)
expand to the matched text and any other group number is an invalid group
reference.
-/

/-- A parsed element of a `re.sub` string template: a literal chunk, or a
reference to group 0/1 (both denote the whole matched text here). -/
inductive TItem
  | lit : List Char → TItem
  | grp : TItem
deriving DecidableEq

/-- Octal digit test. -/
def isOctal (c : Char) : Bool := '0' ≤ c && c ≤ '7'

/-- Numeric value of a list of decimal digits. -/
def digitsVal (l : List Char) : Nat := l.foldl (fun a c => a * 10 + (c.toNat - 48)) 0

/-- Numeric value of a list of octal digits. -/
def octVal (l : List Char) : Nat := l.foldl (fun a c => a * 8 + (c.toNat - 48)) 0

/-- Prepend one template item to a parse result. -/
def consE (it : TItem) (e : Except String (List TItem)) : Except String (List TItem) :=
  e.map (it :: ·)

/-- Fuel-driven worker for `parseTemplate`; every step consumes at least one
character, so fuel `length + 1` never runs out. -/
def parseTemplateFuel : Nat → List Char → Except String (List TItem)
  | 0, _ => .error "internal: out of fuel"
  | _ + 1, [] => .ok []
  | n + 1, b :: rest =>
    if b != '\\' then consE (.lit [b]) (parseTemplateFuel n rest)
    else
    match rest with
    | [] => .error "bad escape (end of pattern)"
    | c :: r =>
      if c == '\\' then consE (.lit ['\\']) (parseTemplateFuel n r)
      else if c == 'a' then consE (.lit ['\x07']) (parseTemplateFuel n r)
      else if c == 'b' then consE (.lit ['\x08']) (parseTemplateFuel n r)
      else if c == 'f' then consE (.lit ['\x0C']) (parseTemplateFuel n r)
      else if c == 'n' then consE (.lit ['\n']) (parseTemplateFuel n r)
      else if c == 'r' then consE (.lit ['\x0D']) (parseTemplateFuel n r)
      else if c == 't' then consE (.lit ['\t']) (parseTemplateFuel n r)
      else if c == 'v' then consE (.lit ['\x0B']) (parseTemplateFuel n r)
      else if c == 'g' then
        match r with
        | '<' :: r2 =>
          let ds := r2.takeWhile (fun ch => ch != '>')
          if (r2.drop ds.length).head? == some '>' then
            if ds ≠ [] ∧ ds.all Char.isDigit then
              if digitsVal ds ≤ 1 then consE .grp (parseTemplateFuel n (r2.drop (ds.length + 1)))
              else .error "invalid group reference"
            else .error "bad character in group name"
          else .error "missing >, unterminated name"
        | _ => .error "missing <"
      else if c == '0' then
        -- octal escape: \0 plus up to two more octal digits
        let os := (r.takeWhile isOctal).take 2
        consE (.lit [Char.ofNat (octVal os)]) (parseTemplateFuel n (r.drop os.length))
      else if c.isDigit then
        match r with
        | d2 :: d3 :: r3 =>
          if isOctal c && isOctal d2 && isOctal d3 then
            consE (.lit [Char.ofNat (octVal [c, d2, d3] % 256)]) (parseTemplateFuel n r3)
          else if d2.isDigit then .error "invalid group reference"
          else if c == '1' then consE .grp (parseTemplateFuel n r)
          else .error "invalid group reference"
        | [d2] =>
          if d2.isDigit then .error "invalid group reference"
          else if c == '1' then consE .grp (parseTemplateFuel n r)
          else .error "invalid group reference"
        | [] =>
          if c == '1' then consE .grp (parseTemplateFuel n r)
          else .error "invalid group reference"
      else if c.isAlpha then .error "bad escape"
      else consE (.lit ['\\', c]) (parseTemplateFuel n r)

/-- Parse a `re.sub` string template, as CPython does before scanning. -/
def parseTemplate (l : List Char) : Except String (List TItem) :=
  parseTemplateFuel (l.length + 1) l

/-- Expand a parsed template at a match (group references yield the matched text). -/
def renderT (matched : List Char) : List TItem → List Char
  | [] => []
  | .lit l :: r => l ++ renderT matched r
  | .grp :: r => matched ++ renderT matched r

/-- The lookarounds of the Markdown pattern
`(?<!\[)(?<!!)(title)(?!\])(?!\()` (keyword_linker.py lines 203-210), in terms
of the scanned prefix `bef` and the rest of the input `rem` (the match starts
at the head of `rem`): the character before the match is neither `[` nor `!`,
and the character after it is neither `]` nor `(`. -/
def mdLookScan (bef rem : List Char) (len : Nat) : Bool :=
  (match bef.getLast? with
    | none => true
    | some c => !(c == '[' || c == '!'))
  && (match rem.drop len with
      | [] => true
      | c :: _ => !(c == ']' || c == '('))

/-- The same lookarounds at an offset of the whole document. -/
def mdLookOk (orig : List Char) (i len : Nat) : Bool :=
  mdLookScan (orig.take i) (orig.drop i) len

/-- One Markdown `re.sub` pass with the already parsed replacement template,
in the same scanning style as `subHtmlGo`.  A lookaround failure is not a
match at all, so it does not consume (the scan advances one character);
matches consume their full length. -/
def subMdGo (title : List Char) (tmpl : List TItem) : List Char → List Char → Nat → List Char
  | _, [], _ => []
  | bef, c :: rest, skip + 1 => subMdGo title tmpl (bef ++ [c]) rest skip
  | bef, c :: rest, 0 =>
    if 0 < title.length ∧ matchIC title (c :: rest) ∧ mdLookScan bef (c :: rest) title.length then
      renderT ((c :: rest).take title.length) tmpl
        ++ subMdGo title tmpl (bef ++ [c]) rest (title.length - 1)
    else c :: subMdGo title tmpl (bef ++ [c]) rest 0

/-- The raw replacement string
`[{title}]({target_url} "查看關鍵字: {title}")` (keyword_linker.py line 213). -/
def mdReplacementStr (title url : List Char) : List Char :=
  '[' :: title ++ "](".toList ++ url ++ " \"查看關鍵字: ".toList ++ title ++ "\")".toList

/-- One full Markdown substitution pass for one candidate: template parsing
first (raising, i.e. `.error`, exactly when CPython's `re.sub` would), then
the scan. -/
def subMd (title url s : List Char) : Except String (List Char) := do
  let tmpl ← parseTemplate (mdReplacementStr title url)
  pure (subMdGo title tmpl [] s 0)

/-!
Candidate planning, common to both dialects (keyword_linker.py lines 45-74 and
168-197): strip each title, drop empties, deduplicate on the lowercased title
keeping the first occurrence, then `sorted(..., key=len, reverse=True)` —
Python's sort is stable, modelled by a stable insertion sort.
-/

/-- Python `str.strip()` (no argument): drop whitespace from both ends. -/
def stripList (l : List Char) : List Char :=
  ((l.dropWhile Char.isWhitespace).reverse.dropWhile Char.isWhitespace).reverse

/-- Python `str.strip()` at the `String` level. -/
def pyStrip (s : String) : String := String.mk (stripList s.toList)

/-- Python `str.lower()` (per-character ASCII case folding, which covers all
titles exercised here). -/
def pyLower (s : String) : String := String.mk (s.toList.map Char.toLower)

/-- The `for kw in keywords: ... for alias in aliases: ...` collection loop
with its `seen_titles` set (modelled as the list of seen lowercase keys). -/
def planLoop : List (String × String) → List String → List (String × String)
  | [], _ => []
  | (t, u) :: rest, seen =>
    let t' := pyStrip t
    if t' = "" then planLoop rest seen
    else if seen.contains (pyLower t') then planLoop rest seen
    else (t', u) :: planLoop rest (pyLower t' :: seen)

/-- Stable insertion (the new element goes before the first element whose
title is not longer), used to model Python's stable `sorted`. -/
def insLenDesc (x : String × String) : List (String × String) → List (String × String)
  | [] => [x]
  | y :: ys => if y.1.length ≤ x.1.length then x :: y :: ys else y :: insLenDesc x ys

/-- Stable sort by display-text length, descending. -/
def sortLenDesc : List (String × String) → List (String × String)
  | [] => []
  | x :: xs => insLenDesc x (sortLenDesc xs)

/-- `sorted_titles`: the full planning phase applied to the raw
`(title, target_url)` rows coming from the two queries. -/
def planCandidates (rows : List (String × String)) : List (String × String) :=
  sortLenDesc (planLoop rows [])

/-- `link_keywords_in_html` from the candidate rows down: the sequence of
in-place case-insensitive substitution passes, one per planned candidate. -/
def linkKeywordsInHtml (rows : List (String × String)) (doc : String) : String :=
  String.mk ((planCandidates rows).foldl (fun res p => subHtml p.1.toList p.2.toList res) doc.toList)

/-- `link_keywords_in_markdown` from the candidate rows down; `.error` models
the `re.error` exception escaping the function. -/
def linkKeywordsInMarkdown (rows : List (String × String)) (doc : String) :
    Except String String :=
  ((planCandidates rows).foldlM (fun res p => subMd p.1.toList p.2.toList res) doc.toList).map
    String.mk

/-!
The catalog layer (keyword_linker.py lines 34-43 and 157-166): two ORM
queries.  A `LearningKeyword` row is reduced to the fields the linker touches;
a `KeywordAlias` row carries the joined owner fields it dereferences
(`alias.keyword_id`, `alias.keyword.category.name`, owner visibility).
`order_by(title.desc())` is modelled as a descending sort on the title
(SQLite compares text bytewise).  Note `if current_keyword_id:` is Python
truthiness: the exclusion filters are skipped when the id is `None` *or* `0`.
-/

/-- The fields of a `LearningKeyword` row used by the linker. -/
structure KwRow where
  id : Int
  title : String
  slug : String
  categoryName : String
  isPublic : Bool
deriving DecidableEq, Repr

/-- The fields of a `KeywordAlias` row (with its joined owner) used by the linker. -/
structure AliasRow where
  ownerId : Int
  ownerIsPublic : Bool
  ownerCategoryName : String
  title : String
  slug : String
deriving DecidableEq, Repr

/-- Python truthiness of `current_keyword_id : int | None`. -/
def truthy : Option Int → Bool
  | none => false
  | some v => v != 0

/-- `slugify` from app/models.py lines 339-346: lowercase, strip, replace each
non-alphanumeric character by `-`, collapse runs of `-`, strip `-` from the
ends.  (`str.isalnum` modelled for ASCII, which covers every input used here.) -/
def repDD : List Char → List Char
  | '-' :: '-' :: rest => '-' :: repDD rest
  | c :: rest => c :: repDD rest
  | [] => []

/-- Does the list contain two adjacent dashes (`"--" in condensed`)? -/
def hasDD : List Char → Bool
  | '-' :: '-' :: _ => true
  | _ :: rest => hasDD rest
  | [] => false

/-- The `while "--" in condensed:` loop; each `str.replace("--", "-")` pass
shortens the string, so `length` rounds of fuel always suffice. -/
def condenseFuel : Nat → List Char → List Char
  | 0, l => l
  | n + 1, l => if hasDD l then condenseFuel n (repDD l) else l

/-- `slugify` (app/models.py lines 339-346). -/
def slugify (value : String) : String :=
  let s := stripList (value.toList.map Char.toLower)
  let allowed := s.map (fun ch => if ch.isAlphanum then ch else '-')
  let condensed := condenseFuel allowed.length allowed
  String.mk (((condensed.dropWhile (· == '-')).reverse.dropWhile (· == '-')).reverse)

/-- `url_for("main.keyword_detail", category_slug=…, slug=…)`: the route is
`@main_bp.get("/<string:category_slug>/<string:slug>")` (app/main/routes.py
line 200), so the generated path is `/{category_slug}/{slug}`. -/
def urlForKeywordDetail (categorySlug slug : String) : String :=
  "/" ++ categorySlug ++ "/" ++ slug

/-- Stable descending insertion by a string key (models `ORDER BY title DESC`). -/
def insTitleDesc {α : Type} (key : α → String) (x : α) : List α → List α
  | [] => [x]
  | y :: ys => if ¬ key x < key y then x :: y :: ys else y :: insTitleDesc key x ys

/-- Descending sort by a string key. -/
def sortTitleDesc {α : Type} (key : α → String) : List α → List α
  | [] => []
  | x :: xs => insTitleDesc key x (sortTitleDesc key xs)

/-- The keyword query (keyword_linker.py lines 34-38): public rows, minus the
current keyword when the id is truthy, ordered by title descending. -/
def kwQuery (kws : List KwRow) (cur : Option Int) : List KwRow :=
  let base := kws.filter (·.isPublic)
  let filtered := if truthy cur then base.filter (fun k => some k.id ≠ cur) else base
  sortTitleDesc (·.title) filtered

/-- The alias query (keyword_linker.py lines 40-43): aliases of public
keywords, minus those owned by the current keyword when the id is truthy,
ordered by alias title descending. -/
def aliasQuery (als : List AliasRow) (cur : Option Int) : List AliasRow :=
  let base := als.filter (·.ownerIsPublic)
  let filtered := if truthy cur then base.filter (fun a => some a.ownerId ≠ cur) else base
  sortTitleDesc (·.title) filtered

/-- The raw `(title, target_url)` rows fed to the planning loop: keyword rows
first, then alias rows (keyword_linker.py lines 48-72). -/
def buildRows (kws : List KwRow) (als : List AliasRow) (cur : Option Int) :
    List (String × String) :=
  (kwQuery kws cur).map (fun k => (k.title, urlForKeywordDetail (slugify k.categoryName) k.slug))
    ++ (aliasQuery als cur).map
      (fun a => (a.title, urlForKeywordDetail (slugify a.ownerCategoryName) a.slug))

/-- `KeywordLinker.link_keywords_in_html`, whole pipeline from the catalog. -/
def linkKeywordsInHtmlFull (kws : List KwRow) (als : List AliasRow) (cur : Option Int)
    (doc : String) : String :=
  linkKeywordsInHtml (buildRows kws als cur) doc

/-- `KeywordLinker.link_keywords_in_markdown`, whole pipeline from the catalog. -/
def linkKeywordsInMarkdownFull (kws : List KwRow) (als : List AliasRow) (cur : Option Int)
    (doc : String) : Except String String :=
  linkKeywordsInMarkdown (buildRows kws als cur) doc

/-!
The reference two-phase algorithm, for the refinement comparison (spec §3
`Document`, §4.4 `LinkRewriter`).  These definitions follow the spec's words —
"compute all accepted spans first against the immutable original text, then
apply all replacements in one reverse (right-to-left) pass" — instantiated
with the source's per-offset acceptance conditions and the source's fragment
text, so that any difference from the sequential implementation is due to the
phase structure alone.
-/

/-- A planned replacement: a half-open span of the original document plus the
fragment that replaces it. -/
structure RepSpan where
  start : Nat
  stop : Nat
  frag : List Char
deriving DecidableEq, Repr

/-- Two half-open spans overlap. -/
def spanOverlap (a b : Nat × Nat) : Bool := a.1 < b.2 && b.1 < a.2

/-- The source's HTML acceptance conditions evaluated at an offset of the
immutable original document. -/
def htmlAcceptAt (orig : List Char) (i len : Nat) : Bool :=
  !insideTagB (orig.take i) && !afterRejectB (orig.drop (i + len))
    && !insideAnchorB (orig.take i)

/-- Modelled from the spec (§4.4 steps 1-2): for each candidate in planner
order, every case-insensitive occurrence in the original document, rejected on
overlap with an already accepted span or on the acceptance check, is recorded
with its HTML fragment. -/
def collectHtml (orig : List Char) (cands : List (String × String)) : List RepSpan :=
  cands.foldl (fun acc p =>
    let tl := p.1.toList
    (List.range orig.length).foldl (fun acc i =>
      if 0 < tl.length ∧ matchIC tl (orig.drop i) then
        if acc.any (fun r => spanOverlap (r.start, r.stop) (i, i + tl.length)) then acc
        else if htmlAcceptAt orig i tl.length then
          acc ++ [⟨i, i + tl.length, htmlFragment tl p.2.toList ((orig.drop i).take tl.length)⟩]
        else acc
      else acc) acc) []

/-- Modelled from the spec (§4.4 steps 1-2), Markdown dialect, with the
source's lookaround acceptance and the source's replacement text. -/
def collectMd (orig : List Char) (cands : List (String × String)) : List RepSpan :=
  cands.foldl (fun acc p =>
    let tl := p.1.toList
    (List.range orig.length).foldl (fun acc i =>
      if 0 < tl.length ∧ matchIC tl (orig.drop i) then
        if acc.any (fun r => spanOverlap (r.start, r.stop) (i, i + tl.length)) then acc
        else if mdLookOk orig i tl.length then
          acc ++ [⟨i, i + tl.length, mdReplacementStr tl p.2.toList⟩]
        else acc
      else acc) acc) []

/-- Descending insertion of a replacement span by start offset. -/
def insSpanDesc (x : RepSpan) : List RepSpan → List RepSpan
  | [] => [x]
  | y :: ys => if y.start ≤ x.start then x :: y :: ys else y :: insSpanDesc x ys

/-- Sort replacement spans by start offset, descending. -/
def sortSpansDesc : List RepSpan → List RepSpan
  | [] => []
  | x :: xs => insSpanDesc x (sortSpansDesc xs)

/-- Modelled from the spec (§4.4 step 3): apply all accepted replacements in a
single right-to-left pass against the original string. -/
def applySpans (orig : List Char) (spans : List RepSpan) : List Char :=
  (sortSpansDesc spans).foldl (fun s r => s.take r.start ++ r.frag ++ s.drop r.stop) orig

/-- Modelled from the spec: the two-phase reference rewrite, HTML dialect. -/
def twoPhaseHtml (rows : List (String × String)) (doc : String) : String :=
  String.mk (applySpans doc.toList (collectHtml doc.toList (planCandidates rows)))

/-- Modelled from the spec: the two-phase reference rewrite, Markdown dialect. -/
def twoPhaseMd (rows : List (String × String)) (doc : String) : String :=
  String.mk (applySpans doc.toList (collectMd doc.toList (planCandidates rows)))

/-- `needle` occurs (case-sensitively) somewhere in `hay`. -/
def hasSub (needle hay : List Char) : Bool :=
  (List.range (hay.length + 1)).any (fun i => litAt needle (hay.drop i))

/-- String-level wrapper for `hasSub`. -/
def strHasSub (needle hay : String) : Bool := hasSub needle.toList hay.toList

/-- `title` occurs case-insensitively somewhere in `l`. -/
def occursICB (t l : List Char) : Bool :=
  (List.range l.length).any (fun i => matchIC t (l.drop i))

set_option maxRecDepth 1000000

/-- C1: the rewrite is not idempotent.  In the Markdown dialect, re-running
the rewrite on already-linked output rewrites the candidate occurrence inside
the previously inserted `"查看關鍵字: …"` title text (the lookarounds do not
protect it), so the second run is not a no-op even for the plain document
`"Python"` with the single candidate `("Python", "/u")`. -/
theorem markdown_rewrite_not_idempotent :
    linkKeywordsInMarkdown [("Python", "/u")] "Python" =
      .ok "[Python](/u \"查看關鍵字: Python\")" ∧
    linkKeywordsInMarkdown [("Python", "/u")] "[Python](/u \"查看關鍵字: Python\")" =
      .ok "[Python](/u \"查看關鍵字: [Python](/u \"查看關鍵字: Python\")\")" ∧
    ("[Python](/u \"查看關鍵字: [Python](/u \"查看關鍵字: Python\")\")" : String) ≠
      "[Python](/u \"查看關鍵字: Python\")" :=
  ⟨rfl, rfl, by decide⟩

/-- C2 counterexample: the sequential in-place implementation is not
observably equivalent to the two-phase plan-then-apply reference: on the
candidates `Neural Network` / `Network` the sequential version additionally
links `Network` inside the title text inserted for `Neural Network`, which the
two-phase algorithm (whose spans are all accepted against the immutable
original) cannot do. -/
theorem seq_vs_twophase_differ :
    linkKeywordsInMarkdown [("Neural Network", "/u1"), ("Network", "/u2")]
        "a Neural Network classifier" =
      .ok "a [Neural Network](/u1 \"查看關鍵字: Neural [Network](/u2 \"查看關鍵字: Network\")\") classifier" ∧
    twoPhaseMd [("Neural Network", "/u1"), ("Network", "/u2")] "a Neural Network classifier" =
      "a [Neural Network](/u1 \"查看關鍵字: Neural Network\") classifier" ∧
    ("a [Neural Network](/u1 \"查看關鍵字: Neural [Network](/u2 \"查看關鍵字: Network\")\") classifier" : String) ≠
      "a [Neural Network](/u1 \"查看關鍵字: Neural Network\") classifier" :=
  ⟨rfl, by decide, by decide⟩

/-- C3: the HTML output can contain `<a …>` inside another `<a>`'s body: the
guard only searches for the literal `"<a "` (lowercase, with a space), so an
input anchor written `<a>` evades it and the occurrence inside its body is
wrapped, producing a nested anchor. -/
theorem nested_anchor_produced :
    linkKeywordsInHtml [("Python", "/u")] "<a>Python</a>" =
      "<a><a href=\"/u\" class=\"keyword-link\" title=\"查看關鍵字: Python\">Python</a></a>" ∧
    strHasSub "<a><a "
      "<a><a href=\"/u\" class=\"keyword-link\" title=\"查看關鍵字: Python\">Python</a></a>" = true :=
  ⟨by decide, by decide⟩

/-- C4: longest-match precedence fails in the Markdown dialect on the spec's
own example: `Neural Network` is linked first, but the later `Network` pass
then additionally links the substring `Network` inside the inserted title
text.  The HTML dialect handles the same example as the claim states. -/
theorem longest_match_markdown_title_relinked :
    linkKeywordsInMarkdown [("Neural Network", "/u1"), ("Network", "/u2")]
        "a Neural Network classifier" =
      .ok "a [Neural Network](/u1 \"查看關鍵字: Neural [Network](/u2 \"查看關鍵字: Network\")\") classifier" ∧
    strHasSub "[Network](/u2"
      "a [Neural Network](/u1 \"查看關鍵字: Neural [Network](/u2 \"查看關鍵字: Network\")\") classifier" = true ∧
    linkKeywordsInHtml [("Neural Network", "/u1"), ("Network", "/u2")]
        "a Neural Network classifier" =
      "a <a href=\"/u1\" class=\"keyword-link\" title=\"查看關鍵字: Neural Network\">Neural Network</a> classifier" :=
  ⟨rfl, by decide, by decide⟩

/-- C5 counterexample: the Markdown dialect is not case-preserving: candidate
`("python", "/cat/python")` matches the document text `"Python"`
case-insensitively, but the replacement template wraps the candidate's own
text `python`, and the original casing `Python` appears nowhere in the
output. -/
theorem markdown_not_case_preserving :
    linkKeywordsInMarkdown [("python", "/cat/python")] "Python is popular" =
      .ok "[python](/cat/python \"查看關鍵字: python\") is popular" ∧
    strHasSub "Python" "[python](/cat/python \"查看關鍵字: python\") is popular" = false :=
  ⟨rfl, by decide⟩

/-- C5 amended: on the spec's example the HTML dialect wraps the original
matched substring `Python` (case preserved, via `match.group(0)`), while the
Markdown dialect wraps the candidate's own casing `python` (the replacement
template uses `title`, not the match). -/
theorem case_preservation_html_only :
    linkKeywordsInHtml [("python", "/cat/python")] "Python is popular" =
      "<a href=\"/cat/python\" class=\"keyword-link\" title=\"查看關鍵字: python\">Python</a> is popular" ∧
    linkKeywordsInMarkdown [("python", "/cat/python")] "Python is popular" =
      .ok "[python](/cat/python \"查看關鍵字: python\") is popular" :=
  ⟨by decide, rfl⟩

/-- C7 counterexample: with `excludeEntryId = 1` (entry `Python`), an
occurrence of that entry's own title is still wrapped, because a different
public entry (id 2) owns an alias with the same display text `Python`; only
rows with id 1 are excluded, not the title text itself. -/
theorem excluded_title_still_wrapped :
    linkKeywordsInHtmlFull
        [⟨1, "Python", "python", "Lang", true⟩, ⟨2, "Snake", "snake", "Animal", true⟩]
        [⟨2, true, "Animal", "Python", "python-alias"⟩]
        (some 1) "Python" =
      "<a href=\"/animal/python-alias\" class=\"keyword-link\" title=\"查看關鍵字: Python\">Python</a>" ∧
    ("<a href=\"/animal/python-alias\" class=\"keyword-link\" title=\"查看關鍵字: Python\">Python</a>" : String)
      ≠ "Python" :=
  ⟨by decide, by decide⟩

/-- C8 counterexample: nothing is escaped.  A candidate title containing a
double quote is interpolated verbatim into the `title="…"` attribute (and the
output contains no `&quot;`), breaking the attribute instead of escaping it. -/
theorem html_title_attr_not_escaped :
    linkKeywordsInHtml [("A\"B", "/u")] "see A\"B now" =
      "see <a href=\"/u\" class=\"keyword-link\" title=\"查看關鍵字: A\"B\">A\"B</a> now" ∧
    strHasSub "&quot;"
      "see <a href=\"/u\" class=\"keyword-link\" title=\"查看關鍵字: A\"B\">A\"B</a> now" = false ∧
    strHasSub "title=\"查看關鍵字: A\"B\">"
      "see <a href=\"/u\" class=\"keyword-link\" title=\"查看關鍵字: A\"B\">A\"B</a> now" = true :=
  ⟨by decide, by decide, by decide⟩

/-- C8 amended: the markup builders of both dialects interpolate the url, the
title text and the matched text verbatim, with no escaping of quotes,
ampersands, angle brackets or parentheses. -/
theorem fragments_interpolate_verbatim :
    linkKeywordsInHtml [("A&B", "/u?a=1&b=2")] "x A&B y" =
      "x <a href=\"/u?a=1&b=2\" class=\"keyword-link\" title=\"查看關鍵字: A&B\">A&B</a> y" ∧
    linkKeywordsInMarkdown [("A)B", "/u")] "xA)By" =
      .ok "x[A)B](/u \"查看關鍵字: A)B\")y" :=
  ⟨by decide, rfl⟩

/-- C9 counterexample: the Markdown rewrite raises (`re.error`, modelled as
`.error`) when a candidate title contains a backslash followed by an ASCII
letter that is not a recognized escape: CPython parses the replacement
template up front, so `("a\qb", "/u")` raises even though the document `"x"`
contains no occurrence at all. -/
theorem markdown_raises_on_backslash_title :
    linkKeywordsInMarkdown [("a\\qb", "/u")] "x" = .error "bad escape" :=
  rfl

/-- The claim-side condition of C10, stated in its own words: the text
contains a `>` character before any `<` character. -/
def closeBeforeOpenB : List Char → Bool
  | [] => false
  | c :: r => if c = '>' then true else if c = '<' then false else closeBeforeOpenB r

/-- A text with a `>` before any `<` trips the source's after-text check. -/
theorem closeBeforeOpen_afterReject (l : List Char) (h : closeBeforeOpenB l = true) :
    afterRejectB l = true := by
  induction l with
  | nil => simp [closeBeforeOpenB] at h
  | cons c r ih =>
    rw [closeBeforeOpenB] at h
    by_cases hgt : c = '>'
    · subst hgt
      have h1 : findChar '>' ('>' :: r) = some 0 := by rw [findChar]; simp
      have h2 : findChar '<' ('>' :: r) = (findChar '<' r).map (· + 1) := by
        rw [findChar]; simp
      cases hm : findChar '<' r with
      | none => simp [afterRejectB, h1, h2, hm]
      | some m =>
        simp only [afterRejectB, h1, h2, hm, Option.map_some]
        simp
    · by_cases hlt : c = '<'
      · rw [if_neg hgt, if_pos hlt] at h
        exact absurd h (by simp)
      · rw [if_neg hgt, if_neg hlt] at h
        cases r with
        | nil => simp [closeBeforeOpenB] at h
        | cons a l =>
          have hr := ih h
          have e1 : findChar '>' (c :: a :: l) = (findChar '>' (a :: l)).map (· + 1) := by
            rw [findChar]
            simp [hgt]
          have e2 : findChar '<' (c :: a :: l) = (findChar '<' (a :: l)).map (· + 1) := by
            rw [findChar]
            simp [hlt]
          rw [afterRejectB] at hr
          cases hc : findChar '>' (a :: l) with
          | none => rw [hc] at hr; simp at hr
          | some nc =>
            cases ho : findChar '<' (a :: l) with
            | none =>
              rw [afterRejectB, e1, e2, hc, ho]
              rfl
            | some no =>
              rw [hc, ho] at hr
              rw [afterRejectB, e1, e2, hc, ho]
              show decide (nc + 1 < no + 1) = true
              simp only [decide_eq_true_eq] at hr ⊢
              omega

/-- C10: in the HTML dialect, an occurrence is rejected — the callback returns
the matched text unchanged, inserting no link — whenever the text after the
occurrence contains a `>` before any `<`, regardless of the candidate, the url
and the preceding text. -/
theorem close_before_open_rejects (title url bef matched aft : List Char)
    (h : closeBeforeOpenB aft = true) :
    replaceIfValid title url bef matched aft = matched := by
  have ha := closeBeforeOpen_afterReject aft h
  by_cases h1 : insideTagB bef
  · simp [replaceIfValid, h1]
  · simp [replaceIfValid, h1, ha]

/-- C10 witness: the concrete document tail `"u>v"` (a stray unescaped `>` in
a text node) suppresses the link for a concrete occurrence. -/
theorem close_before_open_rejects_witness :
    closeBeforeOpenB "u>v".toList = true ∧
      replaceIfValid "Python".toList "/u".toList "see ".toList "Python".toList "u>v".toList =
        "Python".toList :=
  ⟨by decide, close_before_open_rejects _ _ _ _ _ (by decide)⟩

/-- A template without a backslash always parses. -/
theorem parseTemplateFuel_ok_of_noBS (l : List Char) :
    ∀ n, l.length < n → '\\' ∉ l → ∃ items, parseTemplateFuel n l = .ok items := by
  induction l with
  | nil =>
    intro n hn _
    cases n with
    | zero => omega
    | succ m => exact ⟨[], rfl⟩
  | cons c rest ih =>
    intro n hn hmem
    cases n with
    | zero => omega
    | succ m =>
      have hc : c ≠ '\\' := by
        intro hcc
        exact hmem (hcc ▸ List.mem_cons_self c rest)
      have hrest : '\\' ∉ rest := fun hx => hmem (List.mem_cons_of_mem c hx)
      obtain ⟨items, hitems⟩ := ih m (by simpa using hn) hrest
      refine ⟨.lit [c] :: items, ?_⟩
      have : parseTemplateFuel (m + 1) (c :: rest) = consE (.lit [c]) (parseTemplateFuel m rest) := by
        rw [parseTemplateFuel.eq_def]
        simp only []
        rw [if_pos (by simp [hc])]
      rw [this, hitems]
      rfl

/-- The Markdown replacement string is backslash-free whenever the title and
the url are. -/
theorem mdReplacementStr_noBS {title url : List Char} (ht : '\\' ∉ title) (hu : '\\' ∉ url) :
    '\\' ∉ mdReplacementStr title url := by
  intro hmem
  simp [mdReplacementStr] at hmem
  tauto

/-- One Markdown pass never fails when title and url are backslash-free. -/
theorem subMd_ok_of_noBS {title url : List Char} (s : List Char)
    (ht : '\\' ∉ title) (hu : '\\' ∉ url) : ∃ out, subMd title url s = .ok out := by
  obtain ⟨items, hitems⟩ :=
    parseTemplateFuel_ok_of_noBS (mdReplacementStr title url) ((mdReplacementStr title url).length + 1)
      (by omega) (mdReplacementStr_noBS ht hu)
  exact ⟨subMdGo title items [] s 0, by rw [subMd, parseTemplate, hitems]; rfl⟩

/-- The Markdown candidate fold never fails when every planned candidate is
backslash-free. -/
theorem mdFold_ok_of_noBS :
    ∀ (cands : List (String × String)) (s : List Char),
      (∀ p ∈ cands, '\\' ∉ p.1.toList ∧ '\\' ∉ p.2.toList) →
      ∃ out, List.foldlM (fun res p => subMd p.1.toList p.2.toList res) s cands = Except.ok out := by
  intro cands
  induction cands with
  | nil => exact fun s _ => ⟨s, rfl⟩
  | cons p rest ih =>
    intro s h
    obtain ⟨ht, hu⟩ := h p (List.mem_cons_self p rest)
    obtain ⟨mid, hmid⟩ := subMd_ok_of_noBS s ht hu
    obtain ⟨out, hout⟩ := ih mid (fun q hq => h q (List.mem_cons_of_mem p hq))
    refine ⟨out, ?_⟩
    rw [List.foldlM_cons, hmid]
    exact hout

/-- C9 amended: the Markdown rewrite never fails — for any document whatever —
as long as no planned candidate title or url contains a backslash; the
exception of the counterexample is reachable only through backslashes in
catalog data, never through document content.  (The HTML dialect uses a
callback replacement, is total by construction — it is a Lean function into
`String` — and needs no such hypothesis.) -/
theorem markdown_total_without_backslash (rows : List (String × String)) (doc : String)
    (h : ∀ p ∈ planCandidates rows, '\\' ∉ p.1.toList ∧ '\\' ∉ p.2.toList) :
    ∃ s, linkKeywordsInMarkdown rows doc = .ok s := by
  obtain ⟨out, hout⟩ := mdFold_ok_of_noBS (planCandidates rows) doc.toList h
  exact ⟨String.mk out, by rw [linkKeywordsInMarkdown, hout]; rfl⟩

/-- C9 witness: a concrete backslash-free candidate list and document. -/
theorem markdown_total_without_backslash_witness :
    ∃ s, linkKeywordsInMarkdown [("ab", "/u")] "x ab y" = .ok s :=
  markdown_total_without_backslash [("ab", "/u")] "x ab y" (by decide)

/-- A nonempty pattern never matches the empty text. -/
theorem matchIC_nil_of_pos {t : List Char} (h : 0 < t.length) : matchIC t [] = false := by
  cases t with
  | nil => simp at h
  | cons a l => rfl

/-- When a candidate title does not occur case-insensitively in the text, it
matches at no offset. -/
theorem matchIC_false_of_occursICB_false {t s : List Char} (h : occursICB t s = false)
    (hlen : 0 < t.length) : ∀ i, matchIC t (s.drop i) = false := by
  intro i
  by_cases hi : i < s.length
  · rw [occursICB, List.any_eq_false] at h
    exact Bool.eq_false_iff.mpr (h i (List.mem_range.mpr hi))
  · rw [List.drop_eq_nil_of_le (by omega)]
    exact matchIC_nil_of_pos hlen

/-- The HTML scan copies its input verbatim when the title matches nowhere. -/
theorem subHtmlGo_id (t u : List Char) :
    ∀ (rem bef : List Char), (∀ i, 0 < t.length → matchIC t (rem.drop i) = false) →
      subHtmlGo t u bef rem 0 = rem := by
  intro rem
  induction rem with
  | nil => intro bef _; rfl
  | cons c rest ih =>
    intro bef h
    have hcond : ¬(0 < t.length ∧ matchIC t (c :: rest) = true) := by
      rintro ⟨h1, h2⟩
      have := h 0 h1
      simp only [List.drop_zero] at this
      rw [this] at h2
      exact Bool.false_ne_true h2
    rw [subHtmlGo]
    rw [if_neg (by simpa using hcond)]
    rw [ih (bef ++ [c]) (fun i hi => h (i + 1) hi)]

/-- The Markdown scan copies its input verbatim when the title matches nowhere. -/
theorem subMdGo_id (t : List Char) (tmpl : List TItem) :
    ∀ (rem bef : List Char), (∀ i, 0 < t.length → matchIC t (rem.drop i) = false) →
      subMdGo t tmpl bef rem 0 = rem := by
  intro rem
  induction rem with
  | nil => intro bef _; rfl
  | cons c rest ih =>
    intro bef h
    have hcond : ¬(0 < t.length ∧ matchIC t (c :: rest) = true ∧
        mdLookScan bef (c :: rest) t.length = true) := by
      rintro ⟨h1, h2, -⟩
      have := h 0 h1
      simp only [List.drop_zero] at this
      rw [this] at h2
      exact Bool.false_ne_true h2
    rw [subMdGo]
    rw [if_neg (by simpa using hcond)]
    rw [ih (bef ++ [c]) (fun i hi => h (i + 1) hi)]

/-- A fold whose step fixes the accumulator on every list element is the
identity on the accumulator. -/
theorem foldl_id_of_mem {α β : Type} :
    ∀ (l : List β) (acc : α) (f : α → β → α), (∀ a x, x ∈ l → f a x = a) →
      l.foldl f acc = acc := by
  intro l
  induction l with
  | nil => intro acc f _; rfl
  | cons x xs ih =>
    intro acc f h
    rw [List.foldl_cons, h acc x (List.mem_cons_self x xs)]
    exact ih acc f (fun a y hy => h a y (List.mem_cons_of_mem x hy))

/-- The two-phase HTML collector accepts no span when no candidate occurs. -/
theorem collectHtml_nil (orig : List Char) (cands : List (String × String))
    (h : ∀ p ∈ cands, occursICB p.1.toList orig = false) :
    collectHtml orig cands = [] := by
  rw [collectHtml]
  apply foldl_id_of_mem
  intro acc p hp
  apply foldl_id_of_mem
  intro acc2 i hi
  have hfalse : ∀ hl : 0 < p.1.toList.length, matchIC p.1.toList (orig.drop i) = false :=
    fun hl => matchIC_false_of_occursICB_false (h p hp) hl i
  by_cases hl : 0 < p.1.toList.length
  · rw [if_neg]
    rintro ⟨h1, h2⟩
    rw [hfalse hl] at h2
    exact Bool.false_ne_true h2
  · rw [if_neg]
    rintro ⟨h1, -⟩
    exact hl h1

/-- The two-phase Markdown collector accepts no span when no candidate occurs. -/
theorem collectMd_nil (orig : List Char) (cands : List (String × String))
    (h : ∀ p ∈ cands, occursICB p.1.toList orig = false) :
    collectMd orig cands = [] := by
  rw [collectMd]
  apply foldl_id_of_mem
  intro acc p hp
  apply foldl_id_of_mem
  intro acc2 i hi
  have hfalse : ∀ hl : 0 < p.1.toList.length, matchIC p.1.toList (orig.drop i) = false :=
    fun hl => matchIC_false_of_occursICB_false (h p hp) hl i
  by_cases hl : 0 < p.1.toList.length
  · rw [if_neg]
    rintro ⟨h1, h2⟩
    rw [hfalse hl] at h2
    exact Bool.false_ne_true h2
  · rw [if_neg]
    rintro ⟨h1, -⟩
    exact hl h1

/-- The sequential HTML fold leaves the document unchanged when no candidate
occurs. -/
theorem htmlFold_id :
    ∀ (cands : List (String × String)) (s : List Char),
      (∀ p ∈ cands, occursICB p.1.toList s = false) →
      cands.foldl (fun res p => subHtml p.1.toList p.2.toList res) s = s := by
  intro cands
  induction cands with
  | nil => intro s _; rfl
  | cons p rest ih =>
    intro s h
    rw [List.foldl_cons]
    have h1 : subHtml p.1.toList p.2.toList s = s :=
      subHtmlGo_id _ _ s []
        (fun i hi => matchIC_false_of_occursICB_false (h p (List.mem_cons_self p rest)) hi i)
    rw [h1]
    exact ih s (fun q hq => h q (List.mem_cons_of_mem p hq))

/-- The sequential Markdown fold succeeds and leaves the document unchanged
when no candidate occurs and no candidate carries a backslash. -/
theorem mdFold_id :
    ∀ (cands : List (String × String)) (s : List Char),
      (∀ p ∈ cands, occursICB p.1.toList s = false ∧ '\\' ∉ p.1.toList ∧ '\\' ∉ p.2.toList) →
      List.foldlM (fun res p => subMd p.1.toList p.2.toList res) s cands = Except.ok s := by
  intro cands
  induction cands with
  | nil => intro s _; rfl
  | cons p rest ih =>
    intro s h
    obtain ⟨hocc, ht, hu⟩ := h p (List.mem_cons_self p rest)
    obtain ⟨items, hitems⟩ :=
      parseTemplateFuel_ok_of_noBS (mdReplacementStr p.1.toList p.2.toList) _
        (Nat.lt_succ_self _) (mdReplacementStr_noBS ht hu)
    have h1 : subMd p.1.toList p.2.toList s = .ok s := by
      rw [subMd, parseTemplate, hitems]
      show Except.ok (subMdGo p.1.toList items [] s 0) = Except.ok s
      rw [subMdGo_id _ _ s [] (fun i hi => matchIC_false_of_occursICB_false hocc hi i)]
    rw [List.foldlM_cons, h1]
    exact ih s (fun q hq => h q (List.mem_cons_of_mem p hq))

/-- C2 amended: the implemented sequential in-place rewrite is not equivalent
to the two-phase reference in general (see the counterexample: it can link a
later candidate inside markup inserted for an earlier one); the two agree —
both returning the document unchanged — whenever no planned candidate occurs
case-insensitively in the document (and, for Markdown, no candidate carries a
backslash, which would make the sequential implementation raise). -/
theorem seq_eq_twophase_on_no_occurrence (rows : List (String × String)) (doc : String)
    (hocc : ∀ p ∈ planCandidates rows, occursICB p.1.toList doc.toList = false)
    (hbs : ∀ p ∈ planCandidates rows, '\\' ∉ p.1.toList ∧ '\\' ∉ p.2.toList) :
    linkKeywordsInHtml rows doc = twoPhaseHtml rows doc ∧
    twoPhaseHtml rows doc = doc ∧
    linkKeywordsInMarkdown rows doc = .ok (twoPhaseMd rows doc) ∧
    twoPhaseMd rows doc = doc := by
  have h2 : twoPhaseHtml rows doc = doc := by
    rw [twoPhaseHtml, collectHtml_nil doc.toList (planCandidates rows) hocc]
    rfl
  have h4 : twoPhaseMd rows doc = doc := by
    rw [twoPhaseMd, collectMd_nil doc.toList (planCandidates rows) hocc]
    rfl
  have h1 : linkKeywordsInHtml rows doc = doc := by
    rw [linkKeywordsInHtml, htmlFold_id (planCandidates rows) doc.toList hocc]
    rfl
  have h3 : linkKeywordsInMarkdown rows doc = .ok doc := by
    rw [linkKeywordsInMarkdown,
      mdFold_id (planCandidates rows) doc.toList (fun p hp => ⟨hocc p hp, hbs p hp⟩)]
    rfl
  exact ⟨h1.trans h2.symm, h2, by rw [h3, h4], h4⟩

/-- C2 amended witness: a concrete candidate list none of whose titles occurs
in the concrete document. -/
theorem seq_eq_twophase_on_no_occurrence_witness :
    linkKeywordsInHtml [("ab", "/u")] "xyz" = twoPhaseHtml [("ab", "/u")] "xyz" ∧
    twoPhaseHtml [("ab", "/u")] "xyz" = "xyz" ∧
    linkKeywordsInMarkdown [("ab", "/u")] "xyz" = .ok (twoPhaseMd [("ab", "/u")] "xyz") ∧
    twoPhaseMd [("ab", "/u")] "xyz" = "xyz" :=
  seq_eq_twophase_on_no_occurrence [("ab", "/u")] "xyz" (by decide) (by decide)

/-- Modelled from the spec (§4.2 step 1): trim every display text and drop
the entries whose trimmed display text is empty. -/
def specCleanEntries (entries : List (String × String)) : List (String × String) :=
  (entries.map (fun p => (pyStrip p.1, p.2))).filter (fun p => p.1 != "")

/-- Modelled from the spec (§4.2 step 2): keep only the first entry for each
lowercase key, preserving input order. -/
def specDedupe : List (String × String) → List (String × String)
  | [] => []
  | x :: xs => x :: specDedupe (xs.filter (fun y => pyLower y.1 != pyLower x.1))
termination_by l => l.length
decreasing_by
  simp only [List.length_cons]
  exact Nat.lt_succ_of_le (List.length_filter_le _ _)

/-- The source's one-pass collection loop computes exactly the spec's
clean-then-dedupe composition, relative to any set of already seen keys. -/
theorem planLoop_eq_specDedupe :
    ∀ (entries : List (String × String)) (seen : List String),
      planLoop entries seen =
        specDedupe ((specCleanEntries entries).filter
          (fun p => !(seen.contains (pyLower p.1)))) := by
  intro entries
  induction entries with
  | nil => intro seen; simp [planLoop, specCleanEntries, specDedupe]
  | cons e rest ih =>
    intro seen
    obtain ⟨t, u⟩ := e
    by_cases h1 : pyStrip t = ""
    · rw [planLoop]
      rw [if_pos h1]
      have hch : specCleanEntries ((t, u) :: rest) = specCleanEntries rest := by
        rw [specCleanEntries, List.map_cons, List.filter_cons]
        rw [if_neg (by simp [h1])]
        rfl
      rw [hch]
      exact ih seen
    · rw [planLoop, if_neg h1]
      have hch : specCleanEntries ((t, u) :: rest) = (pyStrip t, u) :: specCleanEntries rest := by
        rw [specCleanEntries, List.map_cons, List.filter_cons]
        rw [if_pos (by simp [h1])]
        rfl
      rw [hch, List.filter_cons]
      cases h2 : seen.contains (pyLower (pyStrip t))
      · rw [if_neg (by decide), if_pos (by decide)]
        rw [specDedupe]
        rw [ih (pyLower (pyStrip t) :: seen)]
        refine congrArg (fun l => (pyStrip t, u) :: specDedupe l) ?_
        rw [List.filter_filter]
        apply List.filter_congr
        intro p hp
        dsimp only
        rw [List.contains_cons]
        simp only [bne]
        cases hc : seen.contains (pyLower p.1) <;>
          cases he : (pyLower p.1 == pyLower (pyStrip t)) <;> rfl
      · rw [if_pos rfl, if_neg (by decide)]
        exact ih seen

/-- Membership in a stable descending insertion. -/
theorem mem_insLenDesc {z x : String × String} :
    ∀ {l : List (String × String)}, z ∈ insLenDesc x l → z = x ∨ z ∈ l := by
  intro l
  induction l with
  | nil => intro h; simpa [insLenDesc] using h
  | cons y ys ih =>
    intro h
    rw [insLenDesc] at h
    by_cases hc : y.1.length ≤ x.1.length
    · rw [if_pos hc] at h
      rcases List.mem_cons.mp h with h | h
      · exact Or.inl h
      · exact Or.inr h
    · rw [if_neg hc] at h
      rcases List.mem_cons.mp h with h | h
      · exact Or.inr (h ▸ List.mem_cons_self y ys)
      · rcases ih h with h | h
        · exact Or.inl h
        · exact Or.inr (List.mem_cons_of_mem y h)

/-- Inserting into a length-sorted list keeps it length-sorted. -/
theorem insLenDesc_pairwise (x : String × String) {l : List (String × String)}
    (h : l.Pairwise (fun a b => b.1.length ≤ a.1.length)) :
    (insLenDesc x l).Pairwise (fun a b => b.1.length ≤ a.1.length) := by
  induction l with
  | nil => simp [insLenDesc]
  | cons y ys ih =>
    rw [insLenDesc]
    rcases List.pairwise_cons.mp h with ⟨hy, hys⟩
    by_cases hc : y.1.length ≤ x.1.length
    · rw [if_pos hc]
      refine List.pairwise_cons.mpr ⟨?_, h⟩
      intro z hz
      rcases List.mem_cons.mp hz with rfl | hz
      · exact hc
      · exact le_trans (hy z hz) hc
    · rw [if_neg hc]
      refine List.pairwise_cons.mpr ⟨?_, ih hys⟩
      intro z hz
      rcases mem_insLenDesc hz with rfl | hz
      · omega
      · exact hy z hz

/-- The planner's sort really sorts by display-text length, descending. -/
theorem sortLenDesc_pairwise :
    ∀ l : List (String × String),
      (sortLenDesc l).Pairwise (fun a b => b.1.length ≤ a.1.length) := by
  intro l
  induction l with
  | nil => simp [sortLenDesc]
  | cons x xs ih => exact insLenDesc_pairwise x ih

/-- Stable insertion does not reorder the elements of any fixed length class:
the inserted element lands in front of its own class and every other class is
untouched. -/
theorem insLenDesc_filter_len (x : String × String) (k : Nat) :
    ∀ l : List (String × String),
      (insLenDesc x l).filter (fun p => p.1.length == k) =
        if x.1.length == k then x :: l.filter (fun p => p.1.length == k)
        else l.filter (fun p => p.1.length == k) := by
  intro l
  induction l with
  | nil =>
    rw [insLenDesc]
    by_cases hx : x.1.length == k <;> simp [hx, List.filter_cons]
  | cons y ys ih =>
    rw [insLenDesc]
    by_cases hc : y.1.length ≤ x.1.length
    · rw [if_pos hc]
      by_cases hx : (x.1.length == k) <;> simp [List.filter_cons, hx]
    · rw [if_neg hc]
      rw [List.filter_cons, List.filter_cons, ih]
      by_cases hx : (x.1.length == k)
      · have hyk : (y.1.length == k) = false := by
          rw [beq_eq_false_iff_ne]
          have hx2 : x.1.length = k := by simpa using hx
          omega
        simp [hx, hyk]
      · by_cases hy : (y.1.length == k) <;> simp [hx, hy]

/-- The planner's sort is stable: every length class of the sorted output
lists exactly the deduplicated entries of that length, in their original
relative order. -/
theorem sortLenDesc_filter_len (k : Nat) :
    ∀ l : List (String × String),
      (sortLenDesc l).filter (fun p => p.1.length == k) =
        l.filter (fun p => p.1.length == k) := by
  intro l
  induction l with
  | nil => rfl
  | cons x xs ih =>
    rw [sortLenDesc, insLenDesc_filter_len, List.filter_cons]
    by_cases hx : (x.1.length == k) <;> simp [hx, ih]

/-- C6: the planning phase (1) drops entries with empty trimmed display text,
(2) deduplicates on the lowercase key keeping the first entry per key in input
order, and (3) orders the survivors by display-text length descending with a
stable sort: the output equals a stable-insertion sort of the spec's
clean-then-dedupe list, it is pairwise sorted by descending length, and each
length class keeps exactly the deduplicated entries in their original
relative order. -/
theorem plan_phase_spec (entries : List (String × String)) :
    planCandidates entries = sortLenDesc (specDedupe (specCleanEntries entries)) ∧
    (planCandidates entries).Pairwise (fun a b => b.1.length ≤ a.1.length) ∧
    ∀ k, (planCandidates entries).filter (fun p => p.1.length == k) =
      (specDedupe (specCleanEntries entries)).filter (fun p => p.1.length == k) := by
  have he : planLoop entries [] = specDedupe (specCleanEntries entries) := by
    rw [planLoop_eq_specDedupe entries []]
    congr 1
    apply List.filter_eq_self.mpr
    intro p _
    rfl
  refine ⟨?_, ?_, ?_⟩
  · rw [planCandidates, he]
  · exact sortLenDesc_pairwise _
  · intro k
    rw [planCandidates, he, sortLenDesc_filter_len]

/-- Membership in a descending title insertion. -/
theorem mem_insTitleDesc {α : Type} (key : α → String) (x z : α) :
    ∀ {l : List α}, z ∈ insTitleDesc key x l → z = x ∨ z ∈ l := by
  intro l
  induction l with
  | nil => intro h; simpa [insTitleDesc] using h
  | cons y ys ih =>
    intro h
    rw [insTitleDesc] at h
    by_cases hc : ¬ key x < key y
    · rw [if_pos hc] at h
      rcases List.mem_cons.mp h with h | h
      · exact Or.inl h
      · exact Or.inr h
    · rw [if_neg hc] at h
      rcases List.mem_cons.mp h with h | h
      · exact Or.inr (h ▸ List.mem_cons_self y ys)
      · rcases ih h with h | h
        · exact Or.inl h
        · exact Or.inr (List.mem_cons_of_mem y h)

/-- Sorting by title descending introduces no new elements. -/
theorem mem_sortTitleDesc {α : Type} (key : α → String) (z : α) :
    ∀ {l : List α}, z ∈ sortTitleDesc key l → z ∈ l := by
  intro l
  induction l with
  | nil => intro h; simp [sortTitleDesc] at h
  | cons x xs ih =>
    intro h
    rw [sortTitleDesc] at h
    rcases mem_insTitleDesc key x z h with h | h
    · exact h ▸ List.mem_cons_self x xs
    · exact List.mem_cons_of_mem x (ih h)

/-- C7 amended: with a nonzero `excludeEntryId = e`, every candidate pair the
rewrite uses is built from a public keyword row with `id ≠ e` or from an alias
row owned by a public keyword with id `≠ e` — no candidate originates from the
excluded entry itself.  Occurrences of the excluded entry's *title text* can
nevertheless still be wrapped when some other row carries the same display
text, as the counterexample shows. -/
theorem candidates_exclude_entry_rows (kws : List KwRow) (als : List AliasRow) (e : Int)
    (he : e ≠ 0) :
    ∀ p ∈ buildRows kws als (some e),
      (∃ k, k ∈ kws ∧ k.isPublic = true ∧ k.id ≠ e ∧
        p = (k.title, urlForKeywordDetail (slugify k.categoryName) k.slug)) ∨
      (∃ a, a ∈ als ∧ a.ownerIsPublic = true ∧ a.ownerId ≠ e ∧
        p = (a.title, urlForKeywordDetail (slugify a.ownerCategoryName) a.slug)) := by
  intro p hp
  have htr : truthy (some e) = true := by
    simp [truthy, he]
  rcases List.mem_append.mp hp with hmem | hmem
  · left
    obtain ⟨k, hk, hpk⟩ := List.mem_map.mp hmem
    have hk2 : k ∈ (kws.filter (·.isPublic)).filter (fun k => some k.id ≠ some e) := by
      rw [kwQuery, htr] at hk
      simp only [if_pos] at hk
      exact mem_sortTitleDesc _ k hk
    obtain ⟨hk3, hkid⟩ := List.mem_filter.mp hk2
    obtain ⟨hk4, hkpub⟩ := List.mem_filter.mp hk3
    refine ⟨k, hk4, by simpa using hkpub, ?_, hpk.symm⟩
    intro hid
    rw [hid] at hkid
    simp at hkid
  · right
    obtain ⟨a, ha, hpa⟩ := List.mem_map.mp hmem
    have ha2 : a ∈ (als.filter (·.ownerIsPublic)).filter (fun a => some a.ownerId ≠ some e) := by
      rw [aliasQuery, htr] at ha
      simp only [if_pos] at ha
      exact mem_sortTitleDesc _ a ha
    obtain ⟨ha3, haid⟩ := List.mem_filter.mp ha2
    obtain ⟨ha4, hapub⟩ := List.mem_filter.mp ha3
    refine ⟨a, ha4, by simpa using hapub, ?_, hpa.symm⟩
    intro hid
    rw [hid] at haid
    simp at haid

/-- C7 amended witness: the concrete two-keyword catalog of the counterexample;
the surviving keyword candidate provably originates from the non-excluded row. -/
theorem candidates_exclude_entry_rows_witness :
    (∃ k, k ∈ [KwRow.mk 1 "Python" "python" "Lang" true, KwRow.mk 2 "Snake" "snake" "Animal" true] ∧
      k.isPublic = true ∧ k.id ≠ (1 : Int) ∧
      ("Snake", "/animal/snake") =
        (k.title, urlForKeywordDetail (slugify k.categoryName) k.slug)) ∨
    (∃ a, a ∈ [AliasRow.mk 2 true "Animal" "Python" "python-alias"] ∧
      a.ownerIsPublic = true ∧ a.ownerId ≠ (1 : Int) ∧
      ("Snake", "/animal/snake") =
        (a.title, urlForKeywordDetail (slugify a.ownerCategoryName) a.slug)) :=
  candidates_exclude_entry_rows
    [KwRow.mk 1 "Python" "python" "Lang" true, KwRow.mk 2 "Snake" "snake" "Animal" true]
    [AliasRow.mk 2 true "Animal" "Python" "python-alias"]
    1 (by decide) ("Snake", "/animal/snake") (by decide)

end DHSKeyword
